import Mathlib

/-!
Shallow embedding of `ngg::mpsc_queue` from `src/include/mpsc_queue.hpp`.

Nodes live in a heap addressed by natural-number identities (modelling the
pointers returned by the allocator); `Queue.nodes` maps an identity to the node
stored there, or `none` when that identity is unallocated or already
deallocated.  The instrumented allocator facts needed by the specification are
kept in the state: `fresh` counts `allocate` calls (and is the next identity to
hand out), `freed` records the identities passed to `deallocate` in order, and
`destroyed` records the identities passed to `destroy`.
-/

namespace Mpsc

/-- One queue node: the stored datum and the `next` link
(`none` models a null pointer). -/
structure Node (T : Type) where
  data : T
  next : Option Nat
deriving Repr, DecidableEq

/-- The whole queue object together with the instrumented allocator state. -/
structure Queue (T : Type) where
  nodes : Nat → Option (Node T)
  head : Nat
  tail : Nat
  fresh : Nat
  freed : List Nat
  destroyed : List Nat

attribute [ext] Queue

/-- Pointwise update of the node heap. -/
def setAt (h : Nat → Option (Node T)) (i : Nat) (v : Option (Node T)) :
    Nat → Option (Node T) :=
  fun j => if j = i then v else h j

@[simp]
theorem setAt_same (h : Nat → Option (Node T)) (i : Nat) (v : Option (Node T)) :
    setAt h i v i = v := by
  simp [setAt]

theorem setAt_ne (h : Nat → Option (Node T)) (i j : Nat) (v : Option (Node T))
    (hne : j ≠ i) : setAt h i v j = h j := by
  simp [setAt, hne]

/-- Models `node_allocator_traits::allocate(m_node_alloc, 1)`: hands out the
next fresh identity and counts the allocation. -/
def allocate (s : Queue T) : Nat × Queue T :=
  (s.fresh, { s with fresh := s.fresh + 1 })

/-- Models `node_allocator_traits::construct` on freshly allocated memory:
writes a node with the given `next` pointer and datum. -/
def constructNode (s : Queue T) (i : Nat) (nx : Option Nat) (v : T) : Queue T :=
  { s with nodes := setAt s.nodes i (some ⟨v, nx⟩) }

/-- Models `node_allocator_traits::destroy`: ends the node object's lifetime
(the memory is still allocated, so the heap entry stays). -/
def destroyNode (s : Queue T) (i : Nat) : Queue T :=
  { s with destroyed := s.destroyed ++ [i] }

/-- Models `node_allocator_traits::deallocate(mem, 1)`: returns the memory and
counts the deallocation. -/
def deallocate (s : Queue T) (i : Nat) : Queue T :=
  { s with nodes := setAt s.nodes i none, freed := s.freed ++ [i] }

/-- Models `p->next.store(j)` for a node pointer `p`; a store through a
dangling pointer (undefined behaviour in the C++ source) leaves the heap
unchanged, a case never reached from valid states. -/
def setNext (s : Queue T) (i j : Nat) : Queue T :=
  { s with nodes := setAt s.nodes i ((s.nodes i).map (fun n => { n with next := some j })) }

/-- Models `p->next.load()` for a node pointer `p`. -/
def nextOf (s : Queue T) (i : Nat) : Option Nat :=
  (s.nodes i).bind (fun n => n.next)

/-- Number of `allocate` calls performed so far. -/
def allocCount (s : Queue T) : Nat := s.fresh

/-- Number of `deallocate` calls performed so far. -/
def deallocCount (s : Queue T) : Nat := s.freed.length

/-- Number of node identities currently holding a live node. -/
def liveCount (s : Queue T) : Nat :=
  ((List.range s.fresh).filter (fun i => (s.nodes i).isSome)).length

/-- Models the constructor `mpsc_queue()`: allocates the dummy sentinel,
constructs it with default data and null `next`, and stores it into both
`m_head` and `m_tail`. -/
def mkQueue [Inhabited T] : Queue T :=
  let s0 : Queue T :=
    { nodes := fun _ => none, head := 0, tail := 0, fresh := 0,
      freed := [], destroyed := [] }
  let a := allocate s0
  let s1 := constructNode a.2 a.1 none default
  { s1 with head := a.1, tail := a.1 }

/-- Models `push_impl(T &&value)`: allocate and construct the new node with
null `next`, exchange `m_head` to it obtaining the previous head, then store
the new node into the previous head's `next`. -/
def push_impl (v : T) (s : Queue T) : Queue T :=
  let a := allocate s
  let s1 := constructNode a.2 a.1 none v
  let prev_head := s1.head
  let s2 := { s1 with head := a.1 }
  setNext s2 prev_head a.1

/-- Models the by-copy overload `push(const T &value)`, which forwards a copy
of its argument to `push_impl`. -/
def push (v : T) (s : Queue T) : Queue T :=
  push_impl v s

/-- Models `pull()`: load `m_tail`, load its `next` with acquire; if null
return `nullopt`; otherwise move the data out of the next node, advance
`m_tail` to it, then destroy and deallocate the old tail sentinel.  Reads
through a dangling pointer (undefined behaviour in C++, unreachable from valid
states) are totalised to the empty result. -/
def pull (s : Queue T) : Queue T × Option T :=
  match nextOf s s.tail with
  | none => (s, none)
  | some nxt =>
    match s.nodes nxt with
    | none => (s, none)
    | some n =>
      (deallocate (destroyNode { s with tail := nxt } s.tail) s.tail, some n.data)

/-- One iteration of the `clear()` loop body, fuelled for termination: the
source loop visits strictly increasing node identities below `fresh`, so
`fresh` bounds the number of iterations on every state reachable by the
queue's own operations. -/
def clearLoop : Nat → Queue T → Queue T
  | 0, s => s
  | f + 1, s =>
    match nextOf s s.tail with
    | none => s
    | some nxt =>
      clearLoop f (deallocate (destroyNode { s with tail := nxt } s.tail) s.tail)

/-- Models `clear()`: repeatedly advance `m_tail` along `next`, destroying and
deallocating each retired sentinel, until `next` is null. -/
def clear (s : Queue T) : Queue T :=
  clearLoop s.fresh s

/-- Models the destructor `~mpsc_queue()`: `clear()`, then
`destroy(m_head.load())` and `deallocate(m_tail.load(), 1)`.  Returns the
final state together with the identity passed to `destroy` and the identity
passed to `deallocate`. -/
def destruct (s : Queue T) : Queue T × Nat × Nat :=
  (deallocate (destroyNode (clear s) (clear s).head) (clear s).tail,
   (clear s).head, (clear s).tail)

/-- Pushes a whole list of values in order (a single producer running alone). -/
def pushAll (vs : List T) (s : Queue T) : Queue T :=
  vs.foldl (fun s v => push_impl v s) s

/-- Calls `pull` the given number of times, collecting the returned values in
order. -/
def pullN : Nat → Queue T → Queue T × List T
  | 0, s => (s, [])
  | n + 1, s =>
    let r := pull s
    let rest := pullN n r.1
    (rest.1, r.2.toList ++ rest.2)

/-!
Canonical form of sequentially reachable queue states.  After a single
producer has pushed the values `vs` (in order, with no concurrent activity)
and the consumer has retired the first `t` nodes, the queue is exactly
`stateOf vs t`: node `0` is the original dummy, node `i + 1` holds `vs[i]`,
nodes below `t` have been destroyed and deallocated, `tail = t`,
`head = vs.length`.
-/

/-- Datum stored in node `i`: the dummy's default value for `i = 0`,
otherwise the `i - 1`-st pushed value. -/
def dataAt [Inhabited T] (vs : List T) (i : Nat) : T :=
  if i = 0 then default else vs.getD (i - 1) default

/-- The node heap of the canonical state. -/
def heapOf [Inhabited T] (vs : List T) (t : Nat) : Nat → Option (Node T) :=
  fun i =>
    if t ≤ i ∧ i ≤ vs.length then
      some ⟨dataAt vs i, if i < vs.length then some (i + 1) else none⟩
    else none

/-- The canonical sequential state: values `vs` pushed, first `t` nodes
retired. -/
def stateOf [Inhabited T] (vs : List T) (t : Nat) : Queue T :=
  { nodes := heapOf vs t, head := vs.length, tail := t,
    fresh := vs.length + 1, freed := List.range t, destroyed := List.range t }

@[simp]
theorem stateOf_nodes [Inhabited T] (vs : List T) (t : Nat) :
    (stateOf vs t).nodes = heapOf vs t := rfl

@[simp]
theorem stateOf_head [Inhabited T] (vs : List T) (t : Nat) :
    (stateOf vs t).head = vs.length := rfl

@[simp]
theorem stateOf_tail [Inhabited T] (vs : List T) (t : Nat) :
    (stateOf vs t).tail = t := rfl

@[simp]
theorem stateOf_fresh [Inhabited T] (vs : List T) (t : Nat) :
    (stateOf vs t).fresh = vs.length + 1 := rfl

@[simp]
theorem stateOf_freed [Inhabited T] (vs : List T) (t : Nat) :
    (stateOf vs t).freed = List.range t := rfl

@[simp]
theorem stateOf_destroyed [Inhabited T] (vs : List T) (t : Nat) :
    (stateOf vs t).destroyed = List.range t := rfl

theorem mkQueue_eq_stateOf [Inhabited T] : (mkQueue : Queue T) = stateOf [] 0 := by
  refine Queue.ext ?_ rfl rfl rfl rfl rfl
  funext i
  by_cases h : i = 0
  · subst h
    simp [mkQueue, allocate, constructNode, setAt, stateOf, heapOf, dataAt]
  · simp [mkQueue, allocate, constructNode, setAt, stateOf, heapOf, h, Nat.le_zero]

/-- Retiring the current tail sentinel (the shared tail-advance step of `pull`
and `clear`) moves the canonical state from `t` to `t + 1`. -/
theorem retire_stateOf [Inhabited T] (vs : List T) (t : Nat) :
    deallocate (destroyNode
      { nodes := heapOf vs t, head := vs.length, tail := t + 1,
        fresh := vs.length + 1, freed := List.range t,
        destroyed := List.range t } t) t = stateOf vs (t + 1) := by
  refine Queue.ext ?_ rfl rfl rfl ?_ ?_
  · funext i
    by_cases h : i = t
    · rw [h]
      simp only [deallocate, destroyNode, setAt_same]
      show none = heapOf vs (t + 1) t
      simp only [heapOf]
      rw [if_neg (by omega)]
    · simp only [deallocate, destroyNode]
      rw [setAt_ne _ _ _ _ h]
      show heapOf vs t i = (stateOf vs (t + 1)).nodes i
      rw [stateOf_nodes]
      simp only [heapOf]
      have hiff : (t ≤ i ∧ i ≤ vs.length) ↔ (t + 1 ≤ i ∧ i ≤ vs.length) := by
        omega
      rw [if_congr hiff rfl rfl]
  · show List.range t ++ [t] = List.range (t + 1)
    exact (List.range_succ t).symm
  · show List.range t ++ [t] = List.range (t + 1)
    exact (List.range_succ t).symm

theorem nextOf_stateOf_lt [Inhabited T] (vs : List T) (t : Nat)
    (h : t < vs.length) : nextOf (stateOf vs t) t = some (t + 1) := by
  simp [nextOf, stateOf, heapOf, Nat.le_refl, Nat.le_of_lt h, h]

theorem nextOf_stateOf_last [Inhabited T] (vs : List T) :
    nextOf (stateOf vs vs.length) vs.length = none := by
  simp [nextOf, stateOf, heapOf]

theorem heapOf_at [Inhabited T] (vs : List T) (t i : Nat) (h1 : t ≤ i)
    (h2 : i ≤ vs.length) :
    heapOf vs t i
      = some ⟨dataAt vs i, if i < vs.length then some (i + 1) else none⟩ := by
  simp [heapOf, h1, h2]

theorem pull_stateOf_lt [Inhabited T] (vs : List T) (t : Nat)
    (h : t < vs.length) :
    pull (stateOf vs t) = (stateOf vs (t + 1), some (vs.getD t default)) := by
  have hdata : dataAt vs (t + 1) = vs.getD t default := by
    simp [dataAt]
  simp only [pull, stateOf_tail, stateOf_nodes, nextOf_stateOf_lt vs t h,
    heapOf_at vs t (t + 1) (by omega) (by omega), stateOf_head, stateOf_fresh,
    stateOf_freed, stateOf_destroyed, hdata]
  rw [retire_stateOf]

theorem pull_stateOf_last [Inhabited T] (vs : List T) :
    pull (stateOf vs vs.length) = (stateOf vs vs.length, none) := by
  simp only [pull, stateOf_tail, nextOf_stateOf_last vs]

theorem push_stateOf [Inhabited T] (vs : List T) (t : Nat) (v : T)
    (h : t ≤ vs.length) :
    push_impl v (stateOf vs t) = stateOf (vs ++ [v]) t := by
  refine Queue.ext ?_ ?_ rfl ?_ rfl rfl
  · funext i
    show setAt (setAt (heapOf vs t) (vs.length + 1) (some ⟨v, none⟩)) vs.length
        ((setAt (heapOf vs t) (vs.length + 1) (some ⟨v, none⟩) vs.length).map
          (fun n => { n with next := some (vs.length + 1) }))
        i = heapOf (vs ++ [v]) t i
    by_cases h1 : i = vs.length
    · subst h1
      rw [setAt_same]
      rw [setAt_ne _ _ _ _ (by omega)]
      have hcond : t ≤ vs.length ∧ vs.length ≤ vs.length := ⟨h, le_refl _⟩
      have hcond2 : t ≤ vs.length ∧ vs.length ≤ (vs ++ [v]).length := by
        simp; omega
      simp only [heapOf, if_pos hcond, if_pos hcond2, Option.map_some]
      have hd : dataAt (vs ++ [v]) vs.length = dataAt vs vs.length := by
        rcases Nat.eq_zero_or_pos vs.length with h0 | h0
        · simp [dataAt, h0]
        · simp only [dataAt]
          rw [if_neg (by omega), if_neg (by omega)]
          rw [List.getD_append]
          omega
      simp [hd]
    · rw [setAt_ne _ _ _ _ h1]
      by_cases h2 : i = vs.length + 1
      · subst h2
        rw [setAt_same]
        have hcond : t ≤ vs.length + 1 ∧ vs.length + 1 ≤ (vs ++ [v]).length := by
          simp; omega
        simp only [heapOf, if_pos hcond]
        have hd : dataAt (vs ++ [v]) (vs.length + 1) = v := by
          simp only [dataAt]
          rw [if_neg (by omega)]
          simp
        rw [hd]
        simp
      · rw [setAt_ne _ _ _ _ h2]
        simp only [heapOf]
        by_cases h3 : t ≤ i ∧ i ≤ vs.length
        · have h4 : t ≤ i ∧ i ≤ (vs ++ [v]).length := by simp; omega
          rw [if_pos h3, if_pos h4]
          have hd : dataAt (vs ++ [v]) i = dataAt vs i := by
            rcases Nat.eq_zero_or_pos i with h0 | h0
            · simp [dataAt, h0]
            · simp only [dataAt]
              rw [if_neg (by omega), if_neg (by omega)]
              rw [List.getD_append]
              omega
          have hn : (if i < (vs ++ [v]).length then some (i + 1) else none)
              = (if i < vs.length then some (i + 1) else none) := by
            have : i < vs.length := by omega
            rw [if_pos this, if_pos (by simp; omega)]
          rw [hd, hn]
        · have h4 : ¬ (t ≤ i ∧ i ≤ (vs ++ [v]).length) := by
            simp only [List.length_append, List.length_cons, List.length_nil]
            omega
          rw [if_neg h3, if_neg h4]
  · show vs.length + 1 = (vs ++ [v]).length
    simp
  · show vs.length + 1 + 1 = (vs ++ [v]).length + 1
    simp

theorem clearLoop_stateOf [Inhabited T] (vs : List T) :
    ∀ f t, vs.length - t < f → t ≤ vs.length →
      clearLoop f (stateOf vs t) = stateOf vs vs.length := by
  intro f
  induction f with
  | zero => intro t hf ht; omega
  | succ f ih =>
    intro t hf ht
    rcases Nat.lt_or_ge t vs.length with hlt | hge
    · show clearLoop (f + 1) (stateOf vs t) = stateOf vs vs.length
      simp only [clearLoop, stateOf_tail, stateOf_nodes, stateOf_head,
        stateOf_fresh, stateOf_freed, stateOf_destroyed,
        nextOf_stateOf_lt vs t hlt]
      rw [retire_stateOf]
      exact ih (t + 1) (by omega) (by omega)
    · have heq : t = vs.length := le_antisymm ht hge
      subst heq
      simp only [clearLoop, stateOf_tail, nextOf_stateOf_last vs]

theorem clear_stateOf [Inhabited T] (vs : List T) (t : Nat)
    (h : t ≤ vs.length) : clear (stateOf vs t) = stateOf vs vs.length := by
  show clearLoop (vs.length + 1) (stateOf vs t) = stateOf vs vs.length
  exact clearLoop_stateOf vs (vs.length + 1) t (by omega) h

/-- States reachable by the queue's own operations when every operation runs
to completion before the next begins (no producer is suspended mid-push). -/
inductive SeqReachable [Inhabited T] : Queue T → Prop
  | init : SeqReachable mkQueue
  | pushStep (v : T) (s : Queue T) : SeqReachable s → SeqReachable (push_impl v s)
  | pullStep (s : Queue T) : SeqReachable s → SeqReachable (pull s).1
  | clearStep (s : Queue T) : SeqReachable s → SeqReachable (clear s)

theorem seqReachable_canonical [Inhabited T] {s : Queue T}
    (h : SeqReachable s) : ∃ vs t, t ≤ vs.length ∧ s = stateOf vs t := by
  induction h with
  | init => exact ⟨[], 0, by simp, mkQueue_eq_stateOf⟩
  | pushStep v s _ ih =>
    obtain ⟨vs, t, ht, rfl⟩ := ih
    refine ⟨vs ++ [v], t, by simp; omega, push_stateOf vs t v ht⟩
  | pullStep s _ ih =>
    obtain ⟨vs, t, ht, rfl⟩ := ih
    rcases Nat.lt_or_ge t vs.length with hlt | hge
    · refine ⟨vs, t + 1, by omega, ?_⟩
      rw [pull_stateOf_lt vs t hlt]
    · have heq : t = vs.length := le_antisymm ht hge
      subst heq
      refine ⟨vs, vs.length, le_refl _, ?_⟩
      rw [pull_stateOf_last vs]
  | clearStep s _ ih =>
    obtain ⟨vs, t, ht, rfl⟩ := ih
    exact ⟨vs, vs.length, le_refl _, clear_stateOf vs t ht⟩

theorem pushAll_stateOf [Inhabited T] (ws : List T) :
    ∀ vs t, t ≤ vs.length →
      pushAll ws (stateOf vs t) = stateOf (vs ++ ws) t := by
  induction ws with
  | nil => intro vs t h; simp [pushAll]
  | cons w ws ih =>
    intro vs t h
    show pushAll ws (push_impl w (stateOf vs t)) = stateOf (vs ++ w :: ws) t
    rw [push_stateOf vs t w h]
    rw [ih (vs ++ [w]) t (by simp; omega)]
    simp

theorem pullN_stateOf [Inhabited T] (n : Nat) :
    ∀ (vs : List T) t, t + n ≤ vs.length →
      pullN n (stateOf vs t) = (stateOf vs (t + n), (vs.drop t).take n) := by
  induction n with
  | zero => intro vs t h; simp [pullN]
  | succ n ih =>
    intro vs t h
    have hlt : t < vs.length := by omega
    show pullN (n + 1) (stateOf vs t) = _
    simp only [pullN, pull_stateOf_lt vs t hlt]
    rw [ih vs (t + 1) (by omega)]
    have h1 : t + 1 + n = t + (n + 1) := by omega
    rw [h1]
    have h2 : (vs.drop t).take (n + 1)
        = vs.getD t default :: (vs.drop (t + 1)).take n := by
      rw [List.drop_eq_getElem_cons hlt]
      rw [List.getD_eq_getElem vs default hlt]
      rfl
    rw [h2]
    rfl

/-!
Claim theorems.
-/

/-- C1: pushing the values `vs` in order with a single producer and no
concurrent consumer, then pulling `vs.length` times, returns exactly `vs` in
order, and one further `pull` returns empty. -/
theorem single_producer_fifo [Inhabited T] (vs : List T) :
    (pullN vs.length (pushAll vs (mkQueue : Queue T))).2 = vs ∧
    (pull (pullN vs.length (pushAll vs (mkQueue : Queue T))).1).2 = none := by
  have h0 : pushAll vs (mkQueue : Queue T) = stateOf vs 0 := by
    rw [mkQueue_eq_stateOf, pushAll_stateOf vs [] 0 (by simp)]
    simp
  rw [h0, pullN_stateOf vs.length vs 0 (by omega)]
  rw [Nat.zero_add]
  constructor
  · simp
  · rw [pull_stateOf_last vs]

/-- C3: on a freshly constructed queue, with no pushes having occurred, the
first call to `pull` returns the empty result. -/
theorem fresh_queue_pull_empty [Inhabited T] :
    (pull (mkQueue : Queue T)).2 = none := by
  rw [mkQueue_eq_stateOf]
  have h : pull (stateOf ([] : List T) 0) = (stateOf [] 0, none) :=
    pull_stateOf_last []
  rw [h]

/-- C4: after any sequence of pushes and pulls, `clear` leaves the queue
observably fresh (the next `pull` returns empty, the tail node has no
successor) and every node other than the final sentinel has been destroyed
and deallocated. -/
theorem clear_drains_fully [Inhabited T] (s : Queue T) (h : SeqReachable s) :
    (pull (clear s)).2 = none ∧
    nextOf (clear s) (clear s).tail = none ∧
    (clear s).freed = List.range (clear s).head ∧
    (clear s).destroyed = List.range (clear s).head := by
  obtain ⟨vs, t, ht, rfl⟩ := seqReachable_canonical h
  rw [clear_stateOf vs t ht]
  refine ⟨?_, ?_, ?_, ?_⟩
  · rw [pull_stateOf_last vs]
  · rw [stateOf_tail]
    exact nextOf_stateOf_last vs
  · simp
  · simp

theorem clear_drains_fully_witness :
    (pull (clear (push_impl 5 (mkQueue : Queue Nat)))).2 = none ∧
    nextOf (clear (push_impl 5 (mkQueue : Queue Nat)))
      (clear (push_impl 5 (mkQueue : Queue Nat))).tail = none ∧
    (clear (push_impl 5 (mkQueue : Queue Nat))).freed
      = List.range (clear (push_impl 5 (mkQueue : Queue Nat))).head ∧
    (clear (push_impl 5 (mkQueue : Queue Nat))).destroyed
      = List.range (clear (push_impl 5 (mkQueue : Queue Nat))).head :=
  clear_drains_fully (push_impl 5 (mkQueue : Queue Nat))
    (SeqReachable.pushStep 5 mkQueue SeqReachable.init)

/-- Full object lifetime: construct, push `vs`, drain completely, destroy. -/
def lifecycle [Inhabited T] (vs : List T) : Queue T × Nat × Nat :=
  destruct (pullN vs.length (pushAll vs (mkQueue : Queue T))).1

/-- C5: over a whole lifetime (constructor sentinel included, destructor
sentinel included) the instrumented allocator sees exactly as many
`deallocate` calls as `allocate` calls, and no node identity is deallocated
twice. -/
theorem no_leak_no_double_free [Inhabited T] (vs : List T) :
    deallocCount (lifecycle vs).1 = allocCount (lifecycle vs).1 ∧
    (lifecycle vs).1.freed.Nodup := by
  have h0 : pushAll vs (mkQueue : Queue T) = stateOf vs 0 := by
    rw [mkQueue_eq_stateOf, pushAll_stateOf vs [] 0 (by simp)]
    simp
  have h1 : (pullN vs.length (pushAll vs (mkQueue : Queue T))).1
      = stateOf vs vs.length := by
    rw [h0, pullN_stateOf vs.length vs 0 (by omega)]
    rw [Nat.zero_add]
  have h2 : (lifecycle vs).1
      = deallocate (destroyNode (stateOf vs vs.length) vs.length) vs.length := by
    show (destruct (pullN vs.length (pushAll vs (mkQueue : Queue T))).1).1 = _
    rw [h1]
    show deallocate (destroyNode (clear (stateOf vs vs.length))
        (clear (stateOf vs vs.length)).head)
        (clear (stateOf vs vs.length)).tail = _
    rw [clear_stateOf vs vs.length (le_refl _)]
    rw [stateOf_head, stateOf_tail]
  rw [h2]
  constructor
  · show (List.range vs.length ++ [vs.length]).length = vs.length + 1
    simp
  · show (List.range vs.length ++ [vs.length]).Nodup
    rw [← List.range_succ]
    exact List.nodup_range _

/-- C6: on a quiescent queue the destructor first performs the effect of
`clear`, after which exactly one node remains; the node it passes to
`destroy` (the head) and the node it passes to `deallocate` (the tail) are
one and the same final sentinel. -/
theorem destructor_frees_final_sentinel [Inhabited T] (s : Queue T)
    (h : SeqReachable s) :
    (destruct s).2.1 = (destruct s).2.2 ∧
    (destruct s).2.2 = (clear s).tail ∧
    liveCount (clear s) = 1 := by
  obtain ⟨vs, t, ht, rfl⟩ := seqReachable_canonical h
  have hc : clear (stateOf vs t) = stateOf vs vs.length := clear_stateOf vs t ht
  refine ⟨?_, ?_, ?_⟩
  · show (clear (stateOf vs t)).head = (clear (stateOf vs t)).tail
    rw [hc, stateOf_head, stateOf_tail]
  · show (clear (stateOf vs t)).tail = (clear (stateOf vs t)).tail
    rfl
  · rw [hc]
    show ((List.range (vs.length + 1)).filter
        (fun i => (heapOf vs vs.length i).isSome)).length = 1
    rw [List.range_succ, List.filter_append]
    have hnil : (List.range vs.length).filter
        (fun i => (heapOf vs vs.length i).isSome) = [] := by
      rw [List.filter_eq_nil_iff]
      intro i hi
      rw [List.mem_range] at hi
      simp [heapOf]
      omega
    have hone : (([vs.length] : List Nat)).filter
        (fun i => (heapOf vs vs.length i).isSome) = [vs.length] := by
      simp [heapOf]
    rw [hnil, hone]
    rfl

theorem destructor_frees_final_sentinel_witness :
    (destruct (push_impl 3 (mkQueue : Queue Nat))).2.1
      = (destruct (push_impl 3 (mkQueue : Queue Nat))).2.2 ∧
    (destruct (push_impl 3 (mkQueue : Queue Nat))).2.2
      = (clear (push_impl 3 (mkQueue : Queue Nat))).tail ∧
    liveCount (clear (push_impl 3 (mkQueue : Queue Nat))) = 1 :=
  destructor_frees_final_sentinel (push_impl 3 (mkQueue : Queue Nat))
    (SeqReachable.pushStep 3 mkQueue SeqReachable.init)

/-- C8: on an already-drained queue (the tail sentinel has no successor),
`pull` returns the empty result and returns the state entirely unchanged:
same tail sentinel, same head, no allocation and no deallocation. -/
theorem pull_on_drained_is_noop (s : Queue T) (h : nextOf s s.tail = none) :
    pull s = (s, none) := by
  simp only [pull, h]

theorem pull_on_drained_is_noop_witness :
    nextOf (mkQueue : Queue Nat) (mkQueue : Queue Nat).tail = none ∧
    pull (mkQueue : Queue Nat) = ((mkQueue : Queue Nat), none) :=
  ⟨rfl, pull_on_drained_is_noop (mkQueue : Queue Nat) rfl⟩

/-- Models the allocate call of `push_impl` with an allocator that may fail:
on failure the allocator's failure signal propagates out of `push`
immediately, before any other statement of `push_impl` runs. -/
def allocateTry (ok : Bool) (s : Queue T) : Option (Nat × Queue T) :=
  if ok then some (allocate s) else none

/-- Models `push_impl` under a fallible allocator.  The `Except.error` carries
the queue state at the moment the failure propagates; the success branch is
statement-for-statement the body of `push_impl`. -/
def push_implTry (ok : Bool) (v : T) (s : Queue T) :
    Except (Queue T) (Queue T) :=
  match allocateTry ok s with
  | none => Except.error s
  | some a =>
    Except.ok (setNext { constructNode a.2 a.1 none v with head := a.1 }
      (constructNode a.2 a.1 none v).head a.1)

/-- C9: if node allocation fails during a push, the failure is propagated to
the caller with the queue state untouched (no node constructed, no head
exchange, so any later pull sees exactly the prior contents); when allocation
succeeds the fallible push coincides with `push_impl`. -/
theorem push_alloc_failure_atomic (v : T) (s : Queue T) :
    push_implTry false v s = Except.error s ∧
    push_implTry true v s = Except.ok (push_impl v s) :=
  ⟨rfl, rfl⟩

/-- Value categories of C++ expressions. -/
inductive ValueCategory
  | lvalue
  | rvalue
deriving DecidableEq, Repr

/-- In C++, an id-expression naming a function parameter is an lvalue, even
when the parameter was declared with an rvalue-reference type. -/
def namedParamAsExpr : ValueCategory := ValueCategory.lvalue

/-- The value category of the argument expression `value` in the call
`push_impl(value)` inside the by-move overload `push(T &&value)` of
`mpsc_queue`. -/
def pushMoveCallArg : ValueCategory := namedParamAsExpr

/-- A non-template rvalue-reference parameter `T&&` accepts an argument of
type `T` only when that argument is an rvalue. -/
def bindsToRvalueRef : ValueCategory → Bool
  | ValueCategory.lvalue => false
  | ValueCategory.rvalue => true

/-- C7: the by-move overload `push(T &&value)` forwards `value`, a named
parameter and hence an lvalue, to `push_impl(T&&)`; an lvalue cannot bind to
the rvalue-reference parameter, so instantiating the by-move overload is
ill-formed and it cannot enqueue anything by move. -/
theorem push_move_overload_ill_formed :
    bindsToRvalueRef pushMoveCallArg = false := rfl

/-- C10: in any sequential execution, when `clear` returns, the tail cursor
and the head cursor reference the same node and that node's `next` is null,
so the destructor's destroy-of-head and deallocate-of-tail act on one and the
same final sentinel. -/
theorem clear_tail_meets_head [Inhabited T] (s : Queue T)
    (h : SeqReachable s) :
    (clear s).tail = (clear s).head ∧
    nextOf (clear s) ((clear s).tail) = none := by
  obtain ⟨vs, t, ht, rfl⟩ := seqReachable_canonical h
  rw [clear_stateOf vs t ht]
  refine ⟨rfl, ?_⟩
  rw [stateOf_tail]
  exact nextOf_stateOf_last vs

theorem clear_tail_meets_head_witness :
    (clear (push_impl 7 (push_impl 2 (mkQueue : Queue Nat)))).tail
      = (clear (push_impl 7 (push_impl 2 (mkQueue : Queue Nat)))).head ∧
    nextOf (clear (push_impl 7 (push_impl 2 (mkQueue : Queue Nat))))
      ((clear (push_impl 7 (push_impl 2 (mkQueue : Queue Nat)))).tail) = none :=
  clear_tail_meets_head (push_impl 7 (push_impl 2 (mkQueue : Queue Nat)))
    (SeqReachable.pushStep 7 _ (SeqReachable.pushStep 2 mkQueue SeqReachable.init))

/-!
Interleaved executions (claim C2).  `push_impl` is not atomic: its shared
effects are (a) the allocate/construct/exchange step, whose only contested
instruction is the single atomic exchange on `m_head`, and (b) the release
store into the previous head's `next`.  A producer mid-push is modelled by a
pending `(prev_head, new_node)` link; the consumer's `pull` is the operation
defined above.  Any sequentially consistent interleaving of these steps is
admitted.
-/

/-- The first half of `push_impl`: allocate and construct the new node with
null `next`, then exchange `m_head` to it.  Returns the pair
`(prev_head, new_node)` needed by the remaining link store, and the queue
state. -/
def pushExchange (v : T) (s : Queue T) : (Nat × Nat) × Queue T :=
  (((constructNode (allocate s).2 (allocate s).1 none v).head, (allocate s).1),
   { constructNode (allocate s).2 (allocate s).1 none v with
       head := (allocate s).1 })

/-- The body of `push_impl` is exactly the exchange step followed by the link
store. -/
theorem push_impl_eq_exchange_link (v : T) (s : Queue T) :
    push_impl v s
      = setNext (pushExchange v s).2 (pushExchange v s).1.1
          (pushExchange v s).1.2 := rfl

@[simp]
theorem pushExchange_fst (v : T) (s : Queue T) :
    (pushExchange v s).1 = (s.head, s.fresh) := rfl

@[simp]
theorem pushExchange_nodes (v : T) (s : Queue T) :
    (pushExchange v s).2.nodes = setAt s.nodes s.fresh (some ⟨v, none⟩) := rfl

@[simp]
theorem pushExchange_head (v : T) (s : Queue T) :
    (pushExchange v s).2.head = s.fresh := rfl

@[simp]
theorem pushExchange_tail (v : T) (s : Queue T) :
    (pushExchange v s).2.tail = s.tail := rfl

@[simp]
theorem pushExchange_fresh (v : T) (s : Queue T) :
    (pushExchange v s).2.fresh = s.fresh + 1 := rfl

@[simp]
theorem setNext_nodes (s : Queue T) (i j : Nat) :
    (setNext s i j).nodes
      = setAt s.nodes i ((s.nodes i).map (fun n => { n with next := some j })) :=
  rfl

@[simp]
theorem setNext_head (s : Queue T) (i j : Nat) : (setNext s i j).head = s.head :=
  rfl

@[simp]
theorem setNext_tail (s : Queue T) (i j : Nat) : (setNext s i j).tail = s.tail :=
  rfl

@[simp]
theorem setNext_fresh (s : Queue T) (i j : Nat) :
    (setNext s i j).fresh = s.fresh := rfl

/-- The private state of one producer thread: the values it still has to
push, and the link store it has yet to perform if it is mid-push. -/
structure PState (T : Type) where
  todo : List T
  pendingLink : Option (Nat × Nat)
deriving Repr, DecidableEq

/-- A whole system: the shared queue, every producer's private state, and the
values the consumer has obtained so far, in order. -/
structure Sys (T : Type) where
  q : Queue T
  prods : List (PState T)
  pulled : List T

attribute [ext] Sys

/-- One interleaving step: some producer performs its exchange, some producer
performs its pending link store, or the consumer calls `pull`. -/
inductive Step : Sys T → Sys T → Prop
  | exch (s : Sys T) (l1 l2 : List (PState T)) (v : T) (rest : List T)
      (hp : s.prods = l1 ++ ⟨v :: rest, none⟩ :: l2) :
      Step s { q := (pushExchange v s.q).2,
               prods := l1 ++ ⟨rest, some (pushExchange v s.q).1⟩ :: l2,
               pulled := s.pulled }
  | link (s : Sys T) (l1 l2 : List (PState T)) (todo : List T) (ph nid : Nat)
      (hp : s.prods = l1 ++ ⟨todo, some (ph, nid)⟩ :: l2) :
      Step s { q := setNext s.q ph nid,
               prods := l1 ++ ⟨todo, none⟩ :: l2,
               pulled := s.pulled }
  | pullStep (s : Sys T) :
      Step s { q := (pull s.q).1, prods := s.prods,
               pulled := s.pulled ++ ((pull s.q).2).toList }

/-- The initial system: a freshly constructed queue, each producer holding
its full list of values, nothing pulled yet. -/
def initSys [Inhabited T] (vs0 : List (List T)) : Sys T :=
  { q := mkQueue, prods := vs0.map (fun l => ⟨l, none⟩), pulled := [] }

/-- The new-node identity of a producer's pending link store, if any. -/
def pmap (p : PState T) : Option Nat :=
  p.pendingLink.map (fun x => x.2)

/-- Pending new-node identities of a list of producers. -/
def pendingOf (l : List (PState T)) : List Nat :=
  l.filterMap pmap

/-- Identities of nodes that have been exchanged into `m_head` but whose
predecessor's `next` store is still pending. -/
def pendingIds (s : Sys T) : List Nat :=
  pendingOf s.prods

@[simp]
theorem pendingIds_mk (q0 : Queue T) (ps : List (PState T)) (pl : List T) :
    pendingIds ⟨q0, ps, pl⟩ = pendingOf ps := rfl

@[simp]
theorem pendingOf_append (a b : List (PState T)) :
    pendingOf (a ++ b) = pendingOf a ++ pendingOf b := by
  simp [pendingOf]

@[simp]
theorem pendingOf_cons_none (todo : List T) (l : List (PState T)) :
    pendingOf (⟨todo, none⟩ :: l) = pendingOf l := by
  simp [pendingOf, pmap, List.filterMap_cons]

@[simp]
theorem pendingOf_cons_some (todo : List T) (pr : Nat × Nat)
    (l : List (PState T)) :
    pendingOf (⟨todo, some pr⟩ :: l) = pr.2 :: pendingOf l := by
  simp [pendingOf, pmap, List.filterMap_cons]

theorem ofList_append (a b : List T) :
    Multiset.ofList (a ++ b) = Multiset.ofList a + Multiset.ofList b := rfl

/-- Multiset of values still to be pushed by a list of producers. -/
def todoSum (l : List (PState T)) : Multiset T :=
  (l.map (fun p => Multiset.ofList p.todo)).sum

@[simp]
theorem todoSum_append (a b : List (PState T)) :
    todoSum (a ++ b) = todoSum a + todoSum b := by
  simp [todoSum]

@[simp]
theorem todoSum_cons (p : PState T) (l : List (PState T)) :
    todoSum (p :: l) = Multiset.ofList p.todo + todoSum l := by
  simp [todoSum]

/-- The multiset contribution of node `i` to the queue's unconsumed
contents. -/
def contrib (q : Queue T) (i : Nat) : Multiset T :=
  if q.tail < i then Multiset.ofList (((q.nodes i).map (fun n => n.data)).toList)
  else 0

/-- Multiset of unconsumed values held in the queue's nodes (every live node
strictly beyond the tail sentinel). -/
def inQueue (q : Queue T) : Multiset T :=
  (Finset.range q.fresh).sum (fun i => contrib q i)

/-- Invariant of every reachable interleaved execution.  Node identities are
handed out in exchange order, and each exchange links its node behind the
previous head, so the logical chain is `0, 1, 2, …`; node `i`'s `next` points
to `i + 1` exactly when node `i + 1` exists and its producer has performed
the link store. -/
structure SysInv (vs0 : List (List T)) (s : Sys T) : Prop where
  head_fresh : s.q.head + 1 = s.q.fresh
  tail_head : s.q.tail ≤ s.q.head
  dead_lo : ∀ i, i < s.q.tail → s.q.nodes i = none
  dead_hi : ∀ i, s.q.fresh ≤ i → s.q.nodes i = none
  live : ∀ i, s.q.tail ≤ i → i < s.q.fresh →
    ∃ n : Node T, s.q.nodes i = some n ∧
      n.next = (if i + 1 < s.q.fresh ∧ (i + 1) ∉ pendingIds s
                then some (i + 1) else none)
  pending_ok : ∀ p ∈ s.prods, ∀ ph nid, p.pendingLink = some (ph, nid) →
    ph + 1 = nid ∧ nid < s.q.fresh ∧ s.q.tail < nid
  pending_nodup : (pendingIds s).Nodup
  conserve : Multiset.ofList s.pulled + inQueue s.q + todoSum s.prods
      = (vs0.map (fun l => Multiset.ofList l)).sum

theorem pendingIds_bounds {vs0 : List (List T)} {s : Sys T}
    (hinv : SysInv vs0 s) :
    ∀ x ∈ pendingIds s, s.q.tail < x ∧ x < s.q.fresh := by
  intro x hx
  rw [pendingIds, pendingOf, List.mem_filterMap] at hx
  obtain ⟨p, hp, hf⟩ := hx
  simp only [pmap] at hf
  cases hpl : p.pendingLink with
  | none => rw [hpl] at hf; simp at hf
  | some pr =>
    rw [hpl] at hf
    simp at hf
    obtain ⟨h1, h2, h3⟩ := hinv.pending_ok p hp pr.1 pr.2 (by rw [hpl])
    rw [hf] at h2 h3
    exact ⟨h3, h2⟩

theorem sysInv_init [Inhabited T] (vs0 : List (List T)) :
    SysInv vs0 (initSys vs0) := by
  have hq : ((initSys vs0 : Sys T)).q = stateOf [] 0 := mkQueue_eq_stateOf
  have hprods : ((initSys vs0 : Sys T)).prods
      = vs0.map (fun l => (⟨l, none⟩ : PState T)) := rfl
  have hP : pendingIds ((initSys vs0 : Sys T)) = [] := by
    rw [pendingIds, pendingOf, List.filterMap_eq_nil_iff]
    intro p hp
    rw [hprods, List.mem_map] at hp
    obtain ⟨l, _, rfl⟩ := hp
    rfl
  refine ⟨rfl, Nat.le_refl 0, ?_, ?_, ?_, ?_, ?_, ?_⟩
  · intro i hi
    rw [hq, stateOf_tail] at hi
    exact absurd hi (Nat.not_lt_zero i)
  · intro i hi
    rw [hq, stateOf_fresh, List.length_nil] at hi
    rw [hq, stateOf_nodes]
    simp only [heapOf, List.length_nil]
    rw [if_neg (by omega)]
  · intro i h1 h2
    rw [hq, stateOf_fresh, List.length_nil] at h2
    have hi : i = 0 := by omega
    subst hi
    rw [hq, stateOf_nodes, stateOf_fresh]
    refine ⟨⟨default, none⟩, rfl, ?_⟩
    rw [if_neg (by simp)]
  · intro p hp ph nid hpl
    rw [hprods, List.mem_map] at hp
    obtain ⟨l, _, rfl⟩ := hp
    simp at hpl
  · rw [hP]
    exact List.nodup_nil
  · have hpull : ((initSys vs0 : Sys T)).pulled = [] := rfl
    rw [hpull, hq, hprods, todoSum, List.map_map]
    have hcomp : ((fun p : PState T => Multiset.ofList p.todo)
        ∘ (fun l => (⟨l, none⟩ : PState T))) = fun l => Multiset.ofList l := rfl
    rw [hcomp]
    have h1 : inQueue (stateOf ([] : List T) 0) = 0 := by
      rw [inQueue]
      refine Finset.sum_eq_zero ?_
      intro i hi
      rw [Finset.mem_range, stateOf_fresh, List.length_nil] at hi
      have hi0 : i = 0 := by omega
      subst hi0
      rw [contrib, if_neg (by rw [stateOf_tail]; omega)]
    rw [h1]
    have h2 : Multiset.ofList ([] : List T) = 0 := rfl
    rw [h2, zero_add, zero_add]

theorem sysInv_exch (vs0 : List (List T)) (s : Sys T)
    (l1 l2 : List (PState T)) (v : T) (rest : List T)
    (hp : s.prods = l1 ++ ⟨v :: rest, none⟩ :: l2)
    (hinv : SysInv vs0 s) :
    SysInv vs0 { q := (pushExchange v s.q).2,
                 prods := l1 ++ ⟨rest, some (pushExchange v s.q).1⟩ :: l2,
                 pulled := s.pulled } := by
  have hPlt := pendingIds_bounds hinv
  have hth := hinv.tail_head
  have hhf := hinv.head_fresh
  have hPold : pendingIds s = pendingOf l1 ++ pendingOf l2 := by
    rw [pendingIds, hp]
    simp
  have hfresh_notin : s.q.fresh ∉ pendingIds s := by
    intro hmem
    have := (hPlt _ hmem).2
    omega
  refine ⟨?_, ?_, ?_, ?_, ?_, ?_, ?_, ?_⟩
  · show (pushExchange v s.q).2.head + 1 = (pushExchange v s.q).2.fresh
    rw [pushExchange_head, pushExchange_fresh]
  · show (pushExchange v s.q).2.tail ≤ (pushExchange v s.q).2.head
    rw [pushExchange_tail, pushExchange_head]
    omega
  · intro i hi
    simp only [pushExchange_tail, pushExchange_nodes] at hi ⊢
    rw [setAt_ne _ _ _ _ (by omega)]
    exact hinv.dead_lo i hi
  · intro i hi
    simp only [pushExchange_fresh, pushExchange_nodes] at hi ⊢
    rw [setAt_ne _ _ _ _ (by omega)]
    exact hinv.dead_hi i (by omega)
  · intro i h1 h2
    simp only [pushExchange_tail, pushExchange_fresh, pushExchange_nodes,
      pushExchange_fst, pendingIds_mk, pendingOf_append,
      pendingOf_cons_some] at h1 h2 ⊢
    by_cases hif : i = s.q.fresh
    · subst hif
      refine ⟨⟨v, none⟩, by rw [setAt_same], ?_⟩
      rw [if_neg (by rintro ⟨hc, -⟩; omega)]
    · have hlt2 : i < s.q.fresh := by omega
      rw [setAt_ne _ _ _ _ hif]
      obtain ⟨n, hn, hnext⟩ := hinv.live i h1 hlt2
      refine ⟨n, hn, ?_⟩
      rw [hnext]
      by_cases hii : i + 1 = s.q.fresh
      · rw [if_neg (by rintro ⟨hc, -⟩; omega)]
        rw [if_neg (by
          rintro ⟨-, hm⟩
          exact hm (by
            rw [hii]
            exact List.mem_append_right _ (List.mem_cons_self _ _)))]
      · have hiff : (i + 1 < s.q.fresh ∧ i + 1 ∉ pendingIds s)
            ↔ (i + 1 < s.q.fresh + 1
                ∧ i + 1 ∉ (pendingOf l1 ++ s.q.fresh :: pendingOf l2)) := by
          rw [hPold]
          constructor
          · rintro ⟨ha, hb⟩
            refine ⟨by omega, ?_⟩
            intro hm
            rw [List.mem_append, List.mem_cons] at hm
            rcases hm with h | h | h
            · exact hb (List.mem_append_left _ h)
            · exact hii h
            · exact hb (List.mem_append_right _ h)
          · rintro ⟨ha, hb⟩
            refine ⟨by omega, ?_⟩
            intro hm
            rw [List.mem_append] at hm
            apply hb
            rw [List.mem_append, List.mem_cons]
            rcases hm with h | h
            · exact Or.inl h
            · exact Or.inr (Or.inr h)
        exact if_congr hiff rfl rfl
  · intro p hp2 ph nid hpl
    simp only [pushExchange_fresh, pushExchange_tail]
    have hp3 : p ∈ l1 ++ (⟨rest, some (pushExchange v s.q).1⟩ : PState T) :: l2 :=
      hp2
    rw [List.mem_append, List.mem_cons] at hp3
    rcases hp3 with h | h | h
    · obtain ⟨ha, hb, hc⟩ := hinv.pending_ok p
        (by rw [hp]; exact List.mem_append_left _ h) ph nid hpl
      exact ⟨ha, by omega, hc⟩
    · rw [h] at hpl
      simp only [pushExchange_fst] at hpl
      have hph : ph = s.q.head ∧ nid = s.q.fresh := by
        have := hpl.symm
        rw [Option.some_inj] at this
        exact ⟨congrArg Prod.fst this, congrArg Prod.snd this⟩
      obtain ⟨hA, hB⟩ := hph
      subst hA
      subst hB
      exact ⟨hhf, by omega, by omega⟩
    · obtain ⟨ha, hb, hc⟩ := hinv.pending_ok p
        (by rw [hp]; exact List.mem_append_right _ (List.mem_cons_of_mem _ h))
        ph nid hpl
      exact ⟨ha, by omega, hc⟩
  · simp only [pendingIds_mk, pendingOf_append, pendingOf_cons_some,
      pushExchange_fst]
    rw [List.nodup_middle, List.nodup_cons]
    constructor
    · rw [← hPold]
      exact hfresh_notin
    · rw [← hPold]
      exact hinv.pending_nodup
  · show Multiset.ofList s.pulled + inQueue (pushExchange v s.q).2
        + todoSum (l1 ++ ⟨rest, some (pushExchange v s.q).1⟩ :: l2)
        = (vs0.map (fun l => Multiset.ofList l)).sum
    have hinq : inQueue (pushExchange v s.q).2
        = inQueue s.q + Multiset.ofList [v] := by
      rw [inQueue, inQueue]
      simp only [pushExchange_fresh]
      rw [Finset.sum_range_succ]
      have hlast : contrib (pushExchange v s.q).2 s.q.fresh
          = Multiset.ofList [v] := by
        rw [contrib]
        simp only [pushExchange_tail, pushExchange_nodes, setAt_same]
        rw [if_pos (by omega)]
        rfl
      rw [hlast]
      have hsame : ∀ i ∈ Finset.range s.q.fresh,
          contrib (pushExchange v s.q).2 i = contrib s.q i := by
        intro i hi
        rw [Finset.mem_range] at hi
        rw [contrib, contrib]
        simp only [pushExchange_tail, pushExchange_nodes]
        rw [setAt_ne _ _ _ _ (by omega)]
      rw [Finset.sum_congr rfl hsame]
    have hcons := hinv.conserve
    rw [hp, todoSum_append, todoSum_cons] at hcons
    have hvcons : Multiset.ofList (v :: rest)
        = Multiset.ofList [v] + Multiset.ofList rest := rfl
    rw [hvcons] at hcons
    rw [hinq, todoSum_append, todoSum_cons]
    rw [← hcons]
    abel

theorem sysInv_link (vs0 : List (List T)) (s : Sys T)
    (l1 l2 : List (PState T)) (todo : List T) (ph nid : Nat)
    (hp : s.prods = l1 ++ ⟨todo, some (ph, nid)⟩ :: l2)
    (hinv : SysInv vs0 s) :
    SysInv vs0 { q := setNext s.q ph nid,
                 prods := l1 ++ ⟨todo, none⟩ :: l2,
                 pulled := s.pulled } := by
  have hth := hinv.tail_head
  have hhf := hinv.head_fresh
  have hmem : (⟨todo, some (ph, nid)⟩ : PState T) ∈ s.prods := by
    rw [hp]
    exact List.mem_append_right _ (List.mem_cons_self _ _)
  obtain ⟨hpn1, hpn2, hpn3⟩ := hinv.pending_ok _ hmem ph nid rfl
  subst hpn1
  have hPold : pendingIds s = pendingOf l1 ++ (ph + 1) :: pendingOf l2 := by
    rw [pendingIds, hp]
    simp
  have hnidnot : ph + 1 ∉ pendingOf l1 ++ pendingOf l2 := by
    have hnd := hinv.pending_nodup
    rw [hPold, List.nodup_middle, List.nodup_cons] at hnd
    exact hnd.1
  have hph_t : s.q.tail ≤ ph := by omega
  have hph_f : ph < s.q.fresh := by omega
  obtain ⟨n, hn, hnext⟩ := hinv.live ph hph_t hph_f
  refine ⟨?_, ?_, ?_, ?_, ?_, ?_, ?_, ?_⟩
  · show (setNext s.q ph (ph + 1)).head + 1 = (setNext s.q ph (ph + 1)).fresh
    rw [setNext_head, setNext_fresh]
    exact hhf
  · show (setNext s.q ph (ph + 1)).tail ≤ (setNext s.q ph (ph + 1)).head
    rw [setNext_tail, setNext_head]
    exact hth
  · intro i hi
    simp only [setNext_tail, setNext_nodes] at hi ⊢
    rw [setAt_ne _ _ _ _ (by omega)]
    exact hinv.dead_lo i hi
  · intro i hi
    simp only [setNext_fresh, setNext_nodes] at hi ⊢
    rw [setAt_ne _ _ _ _ (by omega)]
    exact hinv.dead_hi i hi
  · intro i h1 h2
    simp only [setNext_tail, setNext_fresh, setNext_nodes, pendingIds_mk,
      pendingOf_append, pendingOf_cons_none] at h1 h2 ⊢
    by_cases hip : i = ph
    · subst hip
      rw [setAt_same, hn]
      refine ⟨{ n with next := some (i + 1) }, rfl, ?_⟩
      rw [if_pos ⟨hpn2, hnidnot⟩]
    · rw [setAt_ne _ _ _ _ hip]
      obtain ⟨m, hm, hmnext⟩ := hinv.live i h1 h2
      refine ⟨m, hm, ?_⟩
      rw [hmnext]
      have hiff : (i + 1 < s.q.fresh ∧ i + 1 ∉ pendingIds s)
          ↔ (i + 1 < s.q.fresh
              ∧ i + 1 ∉ (pendingOf l1 ++ pendingOf l2)) := by
        rw [hPold]
        constructor
        · rintro ⟨ha, hb⟩
          refine ⟨ha, ?_⟩
          intro hm2
          rw [List.mem_append] at hm2
          apply hb
          rw [List.mem_append, List.mem_cons]
          rcases hm2 with h | h
          · exact Or.inl h
          · exact Or.inr (Or.inr h)
        · rintro ⟨ha, hb⟩
          refine ⟨ha, ?_⟩
          intro hm2
          rw [List.mem_append, List.mem_cons] at hm2
          rcases hm2 with h | h | h
          · exact hb (List.mem_append_left _ h)
          · exact hip (by omega)
          · exact hb (List.mem_append_right _ h)
      exact if_congr hiff rfl rfl
  · intro p hp2 phx nidx hpl
    simp only [setNext_fresh, setNext_tail]
    have hp3 : p ∈ l1 ++ (⟨todo, none⟩ : PState T) :: l2 := hp2
    rw [List.mem_append, List.mem_cons] at hp3
    rcases hp3 with h | h | h
    · exact hinv.pending_ok p (by rw [hp]; exact List.mem_append_left _ h)
        phx nidx hpl
    · rw [h] at hpl
      simp at hpl
    · exact hinv.pending_ok p
        (by rw [hp]; exact List.mem_append_right _ (List.mem_cons_of_mem _ h))
        phx nidx hpl
  · simp only [pendingIds_mk, pendingOf_append, pendingOf_cons_none]
    have hnd := hinv.pending_nodup
    rw [hPold, List.nodup_middle, List.nodup_cons] at hnd
    exact hnd.2
  · show Multiset.ofList s.pulled + inQueue (setNext s.q ph (ph + 1))
        + todoSum (l1 ++ ⟨todo, none⟩ :: l2)
        = (vs0.map (fun l => Multiset.ofList l)).sum
    have hinq : inQueue (setNext s.q ph (ph + 1)) = inQueue s.q := by
      rw [inQueue, inQueue]
      simp only [setNext_fresh]
      refine Finset.sum_congr rfl ?_
      intro i _
      rw [contrib, contrib]
      simp only [setNext_tail, setNext_nodes]
      by_cases hip : i = ph
      · subst hip
        rw [setAt_same, hn]
        rfl
      · rw [setAt_ne _ _ _ _ hip]
    have hcons := hinv.conserve
    rw [hp, todoSum_append, todoSum_cons] at hcons
    rw [hinq, todoSum_append, todoSum_cons]
    exact hcons

theorem sysInv_pull (vs0 : List (List T)) (s : Sys T) (hinv : SysInv vs0 s) :
    SysInv vs0 { q := (pull s.q).1, prods := s.prods,
                 pulled := s.pulled ++ ((pull s.q).2).toList } := by
  have hth := hinv.tail_head
  have hhf := hinv.head_fresh
  cases hnx : nextOf s.q s.q.tail with
  | none =>
    have hpq : pull s.q = (s.q, none) := by
      simp only [pull, hnx]
    have hs : Sys.mk (pull s.q).1 s.prods (s.pulled ++ ((pull s.q).2).toList)
        = s := by
      rw [hpq]
      refine Sys.ext rfl rfl ?_
      show s.pulled ++ [] = s.pulled
      simp
    rw [hs]
    exact hinv
  | some nxt =>
    have htf : s.q.tail < s.q.fresh := by omega
    obtain ⟨n, hn, hnext⟩ := hinv.live s.q.tail (Nat.le_refl _) htf
    have hnx2 : nextOf s.q s.q.tail
        = if s.q.tail + 1 < s.q.fresh ∧ s.q.tail + 1 ∉ pendingIds s
          then some (s.q.tail + 1) else none := by
      rw [nextOf, hn]
      exact hnext
    rw [hnx] at hnx2
    by_cases hcnd : s.q.tail + 1 < s.q.fresh ∧ s.q.tail + 1 ∉ pendingIds s
    case neg =>
      rw [if_neg hcnd] at hnx2
      exact absurd hnx2 (by simp)
    case pos =>
    obtain ⟨hlt1, hnp⟩ := hcnd
    rw [if_pos ⟨hlt1, hnp⟩, Option.some_inj] at hnx2
    subst hnx2
    obtain ⟨m, hm, hmnext⟩ := hinv.live (s.q.tail + 1) (by omega) hlt1
    have hpq : pull s.q
        = (deallocate (destroyNode { s.q with tail := s.q.tail + 1 } s.q.tail)
            s.q.tail, some m.data) := by
      simp only [pull, hnx, hm]
    have hq1 : (pull s.q).1.nodes = setAt s.q.nodes s.q.tail none := by
      rw [hpq]
      rfl
    have hq2 : (pull s.q).1.tail = s.q.tail + 1 := by
      rw [hpq]
      rfl
    have hq3 : (pull s.q).1.head = s.q.head := by
      rw [hpq]
      rfl
    have hq4 : (pull s.q).1.fresh = s.q.fresh := by
      rw [hpq]
      rfl
    have hr : (pull s.q).2 = some m.data := by
      rw [hpq]
    refine ⟨?_, ?_, ?_, ?_, ?_, ?_, ?_, ?_⟩
    · show (pull s.q).1.head + 1 = (pull s.q).1.fresh
      rw [hq3, hq4]
      exact hhf
    · show (pull s.q).1.tail ≤ (pull s.q).1.head
      rw [hq2, hq3]
      omega
    · intro i hi
      simp only [hq2] at hi
      simp only [hq1]
      by_cases hit : i = s.q.tail
      · rw [hit, setAt_same]
      · rw [setAt_ne _ _ _ _ hit]
        exact hinv.dead_lo i (by omega)
    · intro i hi
      simp only [hq4] at hi
      simp only [hq1]
      rw [setAt_ne _ _ _ _ (by omega)]
      exact hinv.dead_hi i hi
    · intro i h1 h2
      simp only [hq2, hq4, hq1, pendingIds_mk] at h1 h2 ⊢
      rw [setAt_ne _ _ _ _ (by omega)]
      obtain ⟨k, hk, hknext⟩ := hinv.live i (by omega) h2
      exact ⟨k, hk, by rw [hknext]; rfl⟩
    · intro p hp2 phx nidx hpl
      simp only [hq2, hq4]
      have hp3 : p ∈ s.prods := hp2
      obtain ⟨ha, hb, hc⟩ := hinv.pending_ok p hp3 phx nidx hpl
      have hne : nidx ≠ s.q.tail + 1 := by
        intro he
        apply hnp
        rw [← he]
        rw [pendingIds, pendingOf, List.mem_filterMap]
        exact ⟨p, hp3, by simp [pmap, hpl]⟩
      exact ⟨ha, hb, by omega⟩
    · simp only [pendingIds_mk]
      exact hinv.pending_nodup
    · show Multiset.ofList (s.pulled ++ ((pull s.q).2).toList)
          + inQueue (pull s.q).1 + todoSum s.prods
          = (vs0.map (fun l => Multiset.ofList l)).sum
      rw [hr]
      have hofc : Multiset.ofList (s.pulled ++ (some m.data).toList)
          = Multiset.ofList s.pulled + Multiset.ofList [m.data] :=
        ofList_append s.pulled [m.data]
      rw [hofc]
      have hinq : inQueue s.q = inQueue (pull s.q).1 + Multiset.ofList [m.data] := by
        rw [inQueue, inQueue, hq4]
        have hmem2 : s.q.tail + 1 ∈ Finset.range s.q.fresh :=
          Finset.mem_range.mpr hlt1
        have e1 : (Finset.range s.q.fresh).sum (fun i => contrib s.q i)
            = ((Finset.range s.q.fresh).erase (s.q.tail + 1)).sum
                (fun i => contrib s.q i) + contrib s.q (s.q.tail + 1) :=
          (Finset.sum_erase_add _ _ hmem2).symm
        have e2 : (Finset.range s.q.fresh).sum (fun i => contrib (pull s.q).1 i)
            = ((Finset.range s.q.fresh).erase (s.q.tail + 1)).sum
                (fun i => contrib (pull s.q).1 i)
              + contrib (pull s.q).1 (s.q.tail + 1) :=
          (Finset.sum_erase_add _ _ hmem2).symm
        have e3 : contrib s.q (s.q.tail + 1) = Multiset.ofList [m.data] := by
          rw [contrib, if_pos (by omega), hm]
          rfl
        have e4 : contrib (pull s.q).1 (s.q.tail + 1) = 0 := by
          rw [contrib, hq2, if_neg (by omega)]
        have e5 : ∀ i ∈ (Finset.range s.q.fresh).erase (s.q.tail + 1),
            contrib (pull s.q).1 i = contrib s.q i := by
          intro i hi
          rw [Finset.mem_erase, Finset.mem_range] at hi
          obtain ⟨hine, hilt⟩ := hi
          rw [contrib, contrib, hq1, hq2]
          by_cases hle : i ≤ s.q.tail
          · rw [if_neg (by omega), if_neg (by omega)]
          · rw [setAt_ne _ _ _ _ (by omega)]
            rw [if_pos (by omega), if_pos (by omega)]
        rw [e1, e2, e3, e4, Finset.sum_congr rfl e5, add_zero]
      have hcons := hinv.conserve
      rw [hinq] at hcons
      rw [← hcons]
      abel

theorem steps_sysInv [Inhabited T] (vs0 : List (List T)) (s : Sys T)
    (h : Relation.ReflTransGen Step (initSys vs0) s) : SysInv vs0 s := by
  induction h with
  | refl => exact sysInv_init vs0
  | tail hab hbc ih =>
    cases hbc with
    | exch l1 l2 v rest hp => exact sysInv_exch vs0 _ l1 l2 v rest hp ih
    | link l1 l2 todo ph nid hp =>
      exact sysInv_link vs0 _ l1 l2 todo ph nid hp ih
    | pullStep => exact sysInv_pull vs0 _ ih

/-- C2: for any number of producers, each holding an arbitrary list of values,
interleaved arbitrarily with one consumer pulling, once every producer has
finished (nothing left to push, no link store pending) and the consumer has
drained the queue to empty, the multiset of values the consumer obtained is
exactly the union of all the producers' values: nothing lost, nothing
duplicated, regardless of the interleaving. -/
theorem conservation_under_concurrency [Inhabited T] (vs0 : List (List T))
    (s : Sys T) (hsteps : Relation.ReflTransGen Step (initSys vs0) s)
    (hdone : ∀ p ∈ s.prods, p.todo = [] ∧ p.pendingLink = none)
    (hdrained : nextOf s.q s.q.tail = none) :
    Multiset.ofList s.pulled = (vs0.map (fun l => Multiset.ofList l)).sum := by
  have hinv := steps_sysInv vs0 s hsteps
  have hhf := hinv.head_fresh
  have hth := hinv.tail_head
  have hPnil : pendingIds s = [] := by
    rw [pendingIds, pendingOf, List.filterMap_eq_nil_iff]
    intro p hp
    simp only [pmap, (hdone p hp).2]
    rfl
  obtain ⟨n, hn, hnext⟩ := hinv.live s.q.tail (Nat.le_refl _) (by omega)
  have hnval : nextOf s.q s.q.tail = n.next := by
    rw [nextOf, hn]
    rfl
  have hfr : s.q.fresh = s.q.tail + 1 := by
    by_contra hne
    have hlt : s.q.tail + 1 < s.q.fresh := by omega
    rw [hnval, hnext,
      if_pos ⟨hlt, by rw [hPnil]; exact List.not_mem_nil _⟩] at hdrained
    exact absurd hdrained (by simp)
  have hinq : inQueue s.q = 0 := by
    rw [inQueue]
    refine Finset.sum_eq_zero ?_
    intro i hi
    rw [Finset.mem_range, hfr] at hi
    rw [contrib, if_neg (by omega)]
  have htodo : todoSum s.prods = 0 := by
    rw [todoSum]
    refine List.sum_eq_zero ?_
    intro x hx
    rw [List.mem_map] at hx
    obtain ⟨p, hp, rfl⟩ := hx
    rw [(hdone p hp).1]
    rfl
  have hcons := hinv.conserve
  rw [hinq, htodo, add_zero, add_zero] at hcons
  exact hcons

/-!
A concrete interleaved execution used to instantiate the conservation
theorem: two producers pushing `3` and `4`; the second producer's link store
lands before the first producer's, so the consumer first observes an empty
queue through the publication gap, then drains both values.
-/

def wExec0 : Sys Nat := initSys [[3], [4]]

def wExec1 : Sys Nat :=
  { q := (pushExchange 3 wExec0.q).2,
    prods := [] ++ (⟨[], some (pushExchange 3 wExec0.q).1⟩ : PState Nat)
      :: [⟨[4], none⟩],
    pulled := wExec0.pulled }

def wExec2 : Sys Nat :=
  { q := (pushExchange 4 wExec1.q).2,
    prods := [⟨[], some (0, 1)⟩]
      ++ (⟨[], some (pushExchange 4 wExec1.q).1⟩ : PState Nat) :: [],
    pulled := wExec1.pulled }

def wExec3 : Sys Nat :=
  { q := setNext wExec2.q 1 2,
    prods := [⟨[], some (0, 1)⟩] ++ (⟨[], none⟩ : PState Nat) :: [],
    pulled := wExec2.pulled }

def wExec4 : Sys Nat :=
  { q := (pull wExec3.q).1, prods := wExec3.prods,
    pulled := wExec3.pulled ++ ((pull wExec3.q).2).toList }

def wExec5 : Sys Nat :=
  { q := setNext wExec4.q 0 1,
    prods := [] ++ (⟨[], none⟩ : PState Nat) :: [⟨[], none⟩],
    pulled := wExec4.pulled }

def wExec6 : Sys Nat :=
  { q := (pull wExec5.q).1, prods := wExec5.prods,
    pulled := wExec5.pulled ++ ((pull wExec5.q).2).toList }

def wExec7 : Sys Nat :=
  { q := (pull wExec6.q).1, prods := wExec6.prods,
    pulled := wExec6.pulled ++ ((pull wExec6.q).2).toList }

theorem conservation_under_concurrency_witness :
    Relation.ReflTransGen Step (initSys [[3], [4]]) wExec7 ∧
    Multiset.ofList wExec7.pulled
      = (([[3], [4]] : List (List Nat)).map (fun l => Multiset.ofList l)).sum := by
  have h1 : Step wExec0 wExec1 := Step.exch wExec0 [] [⟨[4], none⟩] 3 [] rfl
  have h2 : Step wExec1 wExec2 :=
    Step.exch wExec1 [⟨[], some (0, 1)⟩] [] 4 [] rfl
  have h3 : Step wExec2 wExec3 :=
    Step.link wExec2 [⟨[], some (0, 1)⟩] [] [] 1 2 rfl
  have h4 : Step wExec3 wExec4 := Step.pullStep wExec3
  have h5 : Step wExec4 wExec5 := Step.link wExec4 [] [⟨[], none⟩] [] 0 1 rfl
  have h6 : Step wExec5 wExec6 := Step.pullStep wExec5
  have h7 : Step wExec6 wExec7 := Step.pullStep wExec6
  have hchain : Relation.ReflTransGen Step wExec0 wExec7 :=
    Relation.ReflTransGen.tail
      (Relation.ReflTransGen.tail
        (Relation.ReflTransGen.tail
          (Relation.ReflTransGen.tail
            (Relation.ReflTransGen.tail
              (Relation.ReflTransGen.tail
                (Relation.ReflTransGen.tail Relation.ReflTransGen.refl h1)
                h2)
              h3)
            h4)
          h5)
        h6)
      h7
  refine ⟨hchain, ?_⟩
  exact conservation_under_concurrency [[3], [4]] wExec7 hchain (by decide)
    (by rfl)

end Mpsc
